import Mathlib

set_option maxRecDepth 10000

/-
Verification of the go-sdnv SDNV codec (RFC 5050 section 4.1).

The definitions below are a shallow embedding of src/sdnv/codec.go.
Byte buffers and byte streams are lists of naturals (each element a byte
value), uint64 values are naturals with wrap-around written as an explicit
mod 2^64 exactly where the Go code can overflow, and fallible operations
return Option or carry an explicit error field.
-/

namespace Sdnv

/-- Constant MaxByteSize from codec.go: the largest number of bytes a uint64
might be encoded into. -/
def MaxByteSize : Nat := 10

/-- Errors the streaming reader of codec.go can return: io.EOF (nothing read),
io.ErrUnexpectedEOF (source exhausted mid-record) and the ErrOverflow64
sentinel (byte sequence overflows a 64-bit integer). -/
inductive ReadErr where
  | eof
  | unexpectedEOF
  | overflow64
deriving DecidableEq

/-- Result of one streaming read: the returned byte count, the returned error
(none on success), and the final value of the out-parameter data. -/
structure ReadResult where
  bytesConsumed : Nat
  err : Option ReadErr
  data : Nat
deriving DecidableEq

/-- Model of Go bits.Len64 and big.Int.BitLen: the number of bits needed to
represent x, and 0 for x = 0. -/
def bitLen (x : Nat) : Nat := if x = 0 then 0 else Nat.log2 x + 1

/-- The bytes the Encode loop of codec.go writes into buf[0..n] when x is not 0.
The loop runs i from n down to 0, writing byte(x) &&& 0x7f (the current low
7-bit group) at index i, or-ing in the continuation flag 0x80 whenever i is not
n, and then shifting x right by 7.  Hence list position p holds the group
(x >>> (7*(n-p))) &&& 0x7f, flagged at every position except the last. -/
def encGroups (x : Nat) : Nat → List Nat
  | 0 => [x &&& 0x7f]
  | n + 1 => (((x >>> (7 * (n + 1))) &&& 0x7f) ||| 0x80) :: encGroups x n

/-- Function Encode of codec.go.  Writes a single 0x00 for x = 0, otherwise the
groups of x into buffer positions 0..n with n = (bits.Len64(x)-1)/7.  The model
returns the written buffer prefix; the byte count Encode returns is its length. -/
def Encode (x : Nat) : List Nat :=
  if x = 0 then [0x00] else encGroups x ((bitLen x - 1) / 7)

/-- Function encodeBig of codec.go: the same algorithm as Encode, driven by
big.Int.BitLen and big.Int.Rsh over an unbounded nonnegative integer.  Its byte
extraction raw[len(raw)-1] &&& 0x7f is the low 7-bit group of the running
value, so the written bytes coincide with encGroups. -/
def encodeBig (x : Nat) : List Nat :=
  if x = 0 then [0x00] else encGroups x ((bitLen x - 1) / 7)

/-- Loop of function Decode of codec.go: x accumulates x ||| (b &&& 0x7f); a
byte below 0x80 terminates, otherwise x is shifted left by 7 (a uint64 shift,
hence the mod 2^64) and the loop continues.  Running past the end of the buffer
makes the Go code panic; the model returns none there. -/
def decodeLoop : List Nat → Nat → Nat → Option (Nat × Nat)
  | [], _, _ => none
  | b :: rest, x, n =>
    if b < 0x80 then some (x ||| (b &&& 0x7f), n + 1)
    else decodeLoop rest (((x ||| (b &&& 0x7f)) <<< 7) % 2 ^ 64) (n + 1)

/-- Function Decode of codec.go: returns the accumulated uint64 and the number
of bytes consumed, starting from x = 0 and n = 0. -/
def Decode (buf : List Nat) : Option (Nat × Nat) := decodeLoop buf 0 0

/-- Loop of function decodeBig of codec.go: identical to decodeLoop but over a
big.Int accumulator, so the left shift does not wrap. -/
def decodeBigLoop : List Nat → Nat → Nat → Option (Nat × Nat)
  | [], _, _ => none
  | b :: rest, x, n =>
    if b < 0x80 then some (x ||| (b &&& 0x7f), n + 1)
    else decodeBigLoop rest ((x ||| (b &&& 0x7f)) <<< 7) (n + 1)

/-- Function decodeBig of codec.go. -/
def decodeBig (buf : List Nat) : Option (Nat × Nat) := decodeBigLoop buf 0 0

/-- Loop of function ReadBytes of codec.go.  The source is a list of bytes;
reaching its end models io.EOF from br.ReadByte.  Arguments: remaining source,
b0 (the first byte read, kept for the 10-byte overflow check; the Go variable
starts at 0), data (the uint64 out-parameter) and n (bytes consumed so far).
On the 10th byte (n = MaxByteSize-1) the code fails with ErrOverflow64 if the
byte keeps the continuation flag, or if the first byte was not 0x81; both
checks happen before data is updated. -/
def readBytesLoop : List Nat → Nat → Nat → Nat → ReadResult
  | [], _, data, n =>
    if 0 < n then ⟨n, some ReadErr.unexpectedEOF, data⟩
    else ⟨n, some ReadErr.eof, data⟩
  | b :: rest, b0, data, n =>
    if n = MaxByteSize - 1 ∧ 0x80 ≤ b then ⟨MaxByteSize, some ReadErr.overflow64, data⟩
    else if n = MaxByteSize - 1 ∧ b0 ≠ 0x81 then ⟨MaxByteSize, some ReadErr.overflow64, data⟩
    else
      if b < 0x80 then ⟨n + 1, none, data ||| (b &&& 0x7f)⟩
      else readBytesLoop rest (if n = 0 then b else b0) (((data ||| (b &&& 0x7f)) <<< 7) % 2 ^ 64) (n + 1)

/-- Function ReadBytes of codec.go, entered with b0 = 0 and n = 0; data is the
caller's out-parameter value at entry (the code never resets it). -/
def ReadBytes (src : List Nat) (data : Nat) : ReadResult :=
  readBytesLoop src 0 data 0

/-- Loop of function Read of codec.go.  Identical logic to readBytesLoop except
that n counts the byte as soon as r.Read returns it (n += l), so the overflow
checks compare n against MaxByteSize and the first byte is remembered when
n = 1. -/
def readLoop : List Nat → Nat → Nat → Nat → ReadResult
  | [], _, data, n =>
    if 0 < n then ⟨n, some ReadErr.unexpectedEOF, data⟩
    else ⟨n, some ReadErr.eof, data⟩
  | b :: rest, b0, data, n =>
    if n + 1 = MaxByteSize ∧ 0x80 ≤ b then ⟨MaxByteSize, some ReadErr.overflow64, data⟩
    else if n + 1 = MaxByteSize ∧ b0 ≠ 0x81 then ⟨MaxByteSize, some ReadErr.overflow64, data⟩
    else
      if b < 0x80 then ⟨n + 1, none, data ||| (b &&& 0x7f)⟩
      else readLoop rest (if n + 1 = 1 then b else b0) (((data ||| (b &&& 0x7f)) <<< 7) % 2 ^ 64) (n + 1)

/-- Function Read of codec.go, entered with b0 = 0 and n = 0. -/
def Read (src : List Nat) (data : Nat) : ReadResult :=
  readLoop src 0 data 0

/-- The accumulation the streaming readers perform on their out-parameter: each
group is or-ed into the running value, and the value is shifted left by 7 (as a
uint64) after every non-terminating byte.  Seeded at the out-parameter's entry
value. -/
def foldGroups : Nat → List Nat → Nat
  | d, [] => d
  | d, b :: rest =>
    if b < 0x80 then d ||| (b &&& 0x7f)
    else foldGroups (((d ||| (b &&& 0x7f)) <<< 7) % 2 ^ 64) rest

/-- Model of function WriteBytes of codec.go.  The sink is modelled by the
error its WriteByte primitive raises at each successive call (none = success).
The result lists the bytes handed to the sink together with the returned count
and error.  For x = 0 the single WriteByte's error is returned; for x > 0 the
loop statement bw.WriteByte(b) discards the sink's error, so the function
returns (n+1, nil) whatever the sink reports.  The bytes the loop emits (group
i flagged unless i = 0, emitted from i = n down to 0) are exactly encGroups. -/
def WriteBytes (bw : Nat → Option Nat) (x : Nat) : List Nat × Nat × Option Nat :=
  if x = 0 then ([0x00], 1, bw 0)
  else (encGroups x ((bitLen x - 1) / 7), (bitLen x - 1) / 7 + 1, none)

/-- Model of function Write of codec.go: encodes x into a buffer and performs a
single w.Write call with it, returning the sink's (n, err) answer unchanged. -/
def Write (w : List Nat → Nat × Option Nat) (x : Nat) : Nat × Option Nat :=
  if x = 0 then w [0x00] else w (Encode x)

/-- Definition following the words of claim C5 (and spec section 4.1): group
index i runs from n down to 0, group i holds bits [7i, 7i+6] of the value, the
continuation flag is set on every group except the group of index 0, and the
group is written into buffer[i].  To be compared against Encode. -/
def encodeC5Spec (x : Nat) : List Nat :=
  if x = 0 then [0x00]
  else
    let n := (bitLen x - 1) / 7
    (List.range (n + 1)).map fun i =>
      ((x >>> (7 * i)) &&& 0x7f) ||| (if i ≠ 0 then 0x80 else 0)

/-- Amended form of claim C5: group i (bits [7i, 7i+6], flagged unless i = 0)
is written into buffer[n - i], i.e. buffer position p holds group n - p. -/
def encodeC5Amended (x : Nat) : List Nat :=
  if x = 0 then [0x00]
  else
    let n := (bitLen x - 1) / 7
    (List.range (n + 1)).map fun p =>
      ((x >>> (7 * (n - p))) &&& 0x7f) ||| (if p ≠ n then 0x80 else 0)

/-! Bit-arithmetic helper lemmas. -/

/-- Splitting a natural into its bits above 7 and its low 7 bits. -/
theorem or_split (y : Nat) : ((y >>> 7) <<< 7) ||| (y &&& 0x7f) = y := by
  apply Nat.eq_of_testBit_eq
  intro i
  have h7f : (0x7f : Nat) = 2 ^ 7 - 1 := by norm_num
  rw [Nat.testBit_lor, Nat.testBit_shiftLeft, Nat.testBit_shiftRight,
    Nat.testBit_land, h7f, Nat.testBit_two_pow_sub_one]
  rcases Nat.lt_or_ge i 7 with h | h
  · have h1 : ¬ i ≥ 7 := by omega
    simp [h1, h]
  · have h2 : 7 + (i - 7) = i := by omega
    have h3 : ¬ i < 7 := by omega
    simp [h2, h3, Nat.le_of_lt, h]

/-- A byte with the continuation flag or-ed in is at least 0x80. -/
theorem le_or_flag (a : Nat) : 0x80 ≤ a ||| 0x80 := by
  by_contra h
  push_neg at h
  have hb : (a ||| 0x80).testBit 7 = false := by
    apply Nat.testBit_lt_two_pow
    norm_num
    omega
  rw [Nat.testBit_lor] at hb
  have ht : Nat.testBit 0x80 7 = true := by decide
  simp [ht] at hb

/-- Masking with 0x7f removes an or-ed continuation flag. -/
theorem mask_or_flag (a : Nat) : (a ||| 0x80) &&& 0x7f = a &&& 0x7f := by
  apply Nat.eq_of_testBit_eq
  intro i
  rw [Nat.testBit_land, Nat.testBit_land, Nat.testBit_lor]
  rcases Nat.lt_or_ge i 7 with h | h
  · have h80 : Nat.testBit 0x80 i = false := by
      have h128 : (0x80 : Nat) = 2 ^ 7 := by norm_num
      rw [h128]
      exact Nat.testBit_two_pow_of_ne (by omega)
    simp [h80]
  · have h7f : Nat.testBit 0x7f i = false := by
      apply Nat.testBit_lt_two_pow
      calc (0x7f : Nat) < 2 ^ 7 := by norm_num
        _ ≤ 2 ^ i := Nat.pow_le_pow_right (by norm_num) h
    simp [h7f]

/-- Masking with 0x7f is idempotent. -/
theorem mask_idem (a : Nat) : (a &&& 0x7f) &&& 0x7f = a &&& 0x7f := by
  have h : (0x7f : Nat) &&& 0x7f = 0x7f := by decide
  rw [Nat.and_assoc, h]

/-- A masked group is below the continuation threshold. -/
theorem mask_lt (a : Nat) : a &&& 0x7f < 0x80 := by
  have := Nat.and_le_right (n := a) (m := 0x7f)
  omega

/-- Shifting right by at least 7 then left by 7 can only shrink a natural. -/
theorem shift_le (x m : Nat) : (x >>> (m + 7)) <<< 7 ≤ x := by
  rw [Nat.shiftLeft_eq, Nat.shiftRight_eq_div_pow, Nat.pow_add, ← Nat.div_div_eq_div_mul]
  calc x / 2 ^ m / 2 ^ 7 * 2 ^ 7 ≤ x / 2 ^ m := Nat.div_mul_le_self _ _
    _ ≤ x := Nat.div_le_self _ _

/-- The encoder writes one byte per group index. -/
theorem encGroups_length (x : Nat) : ∀ n, (encGroups x n).length = n + 1 := by
  intro n
  induction n with
  | zero => rfl
  | succ n ih => simp [encGroups, ih]

/-- A nonzero natural fits in bitLen bits. -/
theorem lt_two_pow_bitLen (x : Nat) (hx : x ≠ 0) : x < 2 ^ bitLen x := by
  rw [bitLen, if_neg hx]
  exact Nat.lt_log2_self

/-- A bound on a nonzero natural bounds its bit length. -/
theorem bitLen_le (x k : Nat) (h : x < 2 ^ k) (hx : x ≠ 0) : bitLen x ≤ k := by
  rw [bitLen, if_neg hx]
  have := (Nat.log2_lt hx).mpr h
  omega

/-- Any natural fits in the groups its encoding uses. -/
theorem x_lt_groups (x : Nat) (hx : x ≠ 0) : x < 2 ^ (7 * ((bitLen x - 1) / 7) + 7) := by
  have h1 : x < 2 ^ bitLen x := lt_two_pow_bitLen x hx
  have h2 : bitLen x ≤ 7 * ((bitLen x - 1) / 7) + 7 := by omega
  exact lt_of_lt_of_le h1 (Nat.pow_le_pow_right (by norm_num) h2)

/-- A 64-bit value uses at most group index 9. -/
theorem groups_le_nine (x : Nat) (hx : x ≠ 0) (h64 : x < 2 ^ 64) :
    (bitLen x - 1) / 7 ≤ 9 := by
  have := bitLen_le x 64 h64 hx
  omega

/-- In a 10-group encoding of a 64-bit value the first written byte is 0x81. -/
theorem first_byte_ten (x : Nat) (hx : x ≠ 0) (h64 : x < 2 ^ 64)
    (h9 : (bitLen x - 1) / 7 = 9) :
    ((x >>> (7 * 9)) &&& 0x7f) ||| 0x80 = 0x81 := by
  have hle : bitLen x ≤ 64 := bitLen_le x 64 h64 hx
  have hbl : bitLen x = 64 := by omega
  have hlog : Nat.log2 x = 63 := by
    rw [bitLen, if_neg hx] at hbl
    omega
  have hge : 2 ^ 63 ≤ x := by
    have := Nat.log2_self_le hx
    rwa [hlog] at this
  have hshift : x >>> (7 * 9) = 1 := by
    have h63 : (7 * 9 : Nat) = 63 := by norm_num
    rw [h63, Nat.shiftRight_eq_div_pow]
    apply Nat.div_eq_of_lt_le
    · omega
    · have he : ((1 : Nat) + 1) * 2 ^ 63 = 2 ^ 64 := by norm_num
      omega
  rw [hshift]
  decide

/-- Seeding shift for the accumulator invariant: below the group range the
accumulator is zero. -/
theorem seed_zero (x n : Nat) (h : x < 2 ^ (7 * n + 7)) :
    (x >>> (7 * n + 7)) <<< 7 = 0 := by
  rw [Nat.shiftRight_eq_div_pow, Nat.div_eq_of_lt h, Nat.zero_shiftLeft]

/-! Round-trip inductions for the three group-fold consumers. -/

/-- Decode over the encoder's groups, with the accumulator invariant: before
group index n is consumed the accumulator holds the bits of x above group n,
already shifted left by 7. -/
theorem decodeLoop_encGroups (x : Nat) (hx : x < 2 ^ 64) :
    ∀ n c, decodeLoop (encGroups x n) ((x >>> (7 * n + 7)) <<< 7) c
      = some (x, c + n + 1) := by
  intro n
  induction n with
  | zero =>
    intro c
    simp only [encGroups, decodeLoop]
    rw [if_pos (mask_lt x)]
    rw [mask_idem, Nat.mul_zero, Nat.zero_add, or_split]
  | succ n ih =>
    intro c
    have hflag := le_or_flag ((x >>> (7 * (n + 1))) &&& 0x7f)
    simp only [encGroups, decodeLoop]
    rw [if_neg (by omega)]
    have hacc : ((x >>> (7 * (n + 1) + 7)) <<< 7) ||| (((((x >>> (7 * (n + 1))) &&& 0x7f) ||| 0x80)) &&& 0x7f)
        = x >>> (7 * (n + 1)) := by
      rw [mask_or_flag, mask_idem, Nat.shiftRight_add, or_split]
    rw [hacc]
    have h77 : 7 * (n + 1) = 7 * n + 7 := by ring
    have hm : (x >>> (7 * (n + 1))) <<< 7 % 2 ^ 64 = (x >>> (7 * (n + 1))) <<< 7 := by
      apply Nat.mod_eq_of_lt
      rw [h77]
      exact lt_of_le_of_lt (shift_le x (7 * n)) hx
    rw [hm, h77, ih (c + 1)]
    have hcount : c + 1 + n + 1 = c + (n + 1) + 1 := by omega
    rw [hcount]

/-- The big-integer decoder over the encoder's groups: same invariant, with no
64-bit wrap. -/
theorem decodeBigLoop_encGroups (x : Nat) :
    ∀ n c, decodeBigLoop (encGroups x n) ((x >>> (7 * n + 7)) <<< 7) c
      = some (x, c + n + 1) := by
  intro n
  induction n with
  | zero =>
    intro c
    simp only [encGroups, decodeBigLoop]
    rw [if_pos (mask_lt x)]
    rw [mask_idem, Nat.mul_zero, Nat.zero_add, or_split]
  | succ n ih =>
    intro c
    have hflag := le_or_flag ((x >>> (7 * (n + 1))) &&& 0x7f)
    simp only [encGroups, decodeBigLoop]
    rw [if_neg (by omega)]
    have hacc : ((x >>> (7 * (n + 1) + 7)) <<< 7) ||| (((((x >>> (7 * (n + 1))) &&& 0x7f) ||| 0x80)) &&& 0x7f)
        = x >>> (7 * (n + 1)) := by
      rw [mask_or_flag, mask_idem, Nat.shiftRight_add, or_split]
    rw [hacc]
    have h77 : 7 * (n + 1) = 7 * n + 7 := by ring
    rw [h77, ih (c + 1)]
    have hcount : c + 1 + n + 1 = c + (n + 1) + 1 := by omega
    rw [hcount]

/-- The streaming readers' accumulation over the encoder's groups, seeded at
the accumulator invariant, reconstructs x. -/
theorem foldGroups_encGroups (x : Nat) (hx : x < 2 ^ 64) :
    ∀ n, foldGroups ((x >>> (7 * n + 7)) <<< 7) (encGroups x n) = x := by
  intro n
  induction n with
  | zero =>
    simp only [encGroups, foldGroups]
    rw [if_pos (mask_lt x)]
    rw [mask_idem, Nat.mul_zero, Nat.zero_add, or_split]
  | succ n ih =>
    have hflag := le_or_flag ((x >>> (7 * (n + 1))) &&& 0x7f)
    simp only [encGroups, foldGroups]
    rw [if_neg (by omega)]
    have hacc : ((x >>> (7 * (n + 1) + 7)) <<< 7) ||| (((((x >>> (7 * (n + 1))) &&& 0x7f) ||| 0x80)) &&& 0x7f)
        = x >>> (7 * (n + 1)) := by
      rw [mask_or_flag, mask_idem, Nat.shiftRight_add, or_split]
    rw [hacc]
    have h77 : 7 * (n + 1) = 7 * n + 7 := by ring
    have hm : (x >>> (7 * (n + 1))) <<< 7 % 2 ^ 64 = (x >>> (7 * (n + 1))) <<< 7 := by
      apply Nat.mod_eq_of_lt
      rw [h77]
      exact lt_of_le_of_lt (shift_le x (7 * n)) hx
    rw [hm, h77, ih]

/-- ReadBytes over the encoder's groups succeeds, consuming every byte and
accumulating into the out-parameter exactly as foldGroups describes.  The
overflow checks need: the byte at count 9, when reached, is the terminator, and
the remembered first byte is then 0x81. -/
theorem readBytesLoop_encGroups (x : Nat) :
    ∀ n c b0 d, c + n ≤ 9 →
      (c + n = 9 → (if c = 0 then ((x >>> (7 * n)) &&& 0x7f) ||| 0x80 else b0) = 0x81) →
      readBytesLoop (encGroups x n) b0 d c
        = ⟨c + n + 1, none, foldGroups d (encGroups x n)⟩ := by
  intro n
  induction n with
  | zero =>
    intro c b0 d hle h9
    have hmlt := mask_lt x
    simp only [encGroups, readBytesLoop, foldGroups]
    have hc1 : ¬ (c = MaxByteSize - 1 ∧ 0x80 ≤ x &&& 0x7f) := by
      rintro ⟨_, h⟩
      omega
    have hc2 : ¬ (c = MaxByteSize - 1 ∧ b0 ≠ 0x81) := by
      rintro ⟨h1, h2⟩
      have hc9 : c = 9 := by simpa [MaxByteSize] using h1
      have hb := h9 (by omega)
      rw [if_neg (by omega)] at hb
      exact h2 hb
    rw [if_neg hc1, if_neg hc2, if_pos hmlt, if_pos hmlt]
  | succ n ih =>
    intro c b0 d hle h9
    have hflag := le_or_flag ((x >>> (7 * (n + 1))) &&& 0x7f)
    simp only [encGroups, readBytesLoop, foldGroups]
    have hc1 : ¬ (c = MaxByteSize - 1 ∧ 0x80 ≤ ((x >>> (7 * (n + 1))) &&& 0x7f) ||| 0x80) := by
      rintro ⟨h1, _⟩
      have : c = 9 := by simpa [MaxByteSize] using h1
      omega
    have hc2 : ¬ (c = MaxByteSize - 1 ∧ b0 ≠ 0x81) := by
      rintro ⟨h1, _⟩
      have : c = 9 := by simpa [MaxByteSize] using h1
      omega
    have hbf : ¬ ((((x >>> (7 * (n + 1))) &&& 0x7f) ||| 0x80) < 0x80) := by omega
    rw [if_neg hc1, if_neg hc2, if_neg hbf, if_neg hbf]
    have hnext : (c + 1) + n = 9 →
        (if c + 1 = 0 then ((x >>> (7 * n)) &&& 0x7f) ||| 0x80
         else if c = 0 then ((x >>> (7 * (n + 1))) &&& 0x7f) ||| 0x80 else b0) = 0x81 := by
      intro h
      have hne : ¬ (c + 1 = 0) := by omega
      rw [if_neg hne]
      exact h9 (by omega)
    rw [ih (c + 1) _ _ (by omega) hnext]
    have hcount : c + 1 + n + 1 = c + (n + 1) + 1 := by omega
    rw [hcount]

/-- Function Read tracks exactly the same state as ReadBytes: its count is
incremented before the checks, so the two loops agree pointwise. -/
theorem readLoop_eq_readBytesLoop :
    ∀ (src : List Nat) (b0 d n : Nat), readLoop src b0 d n = readBytesLoop src b0 d n := by
  intro src
  induction src with
  | nil => intro b0 d n; rfl
  | cons b rest ih =>
    intro b0 d n
    have h1 : (n + 1 = MaxByteSize ∧ 0x80 ≤ b) ↔ (n = MaxByteSize - 1 ∧ 0x80 ≤ b) := by
      simp only [MaxByteSize]
      omega
    have h2 : (n + 1 = MaxByteSize ∧ b0 ≠ 0x81) ↔ (n = MaxByteSize - 1 ∧ b0 ≠ 0x81) := by
      simp only [MaxByteSize]
      constructor
      · rintro ⟨ha, hb⟩; exact ⟨by omega, hb⟩
      · rintro ⟨ha, hb⟩; exact ⟨by omega, hb⟩
    have h3 : (n + 1 = 1) ↔ (n = 0) := by omega
    simp only [readLoop, readBytesLoop, h1, h2, h3, ih]

/-! Helpers for the overflow and truncation behaviour of the streaming reader. -/

/-- Dropping below the length exposes the element at that position. -/
theorem drop_getD (l : List Nat) : ∀ n, n < l.length → l.drop n = l.getD n 0 :: l.drop (n + 1) := by
  induction l with
  | nil =>
    intro n h
    simp at h
  | cons b rest ih =>
    intro n h
    cases n with
    | zero => simp
    | succ m =>
      simp only [List.drop_succ_cons, List.getD_cons_succ]
      exact ih m (by simpa using h)

/-- Running the reader over j continuation-flagged bytes just advances the
count to 9 (when c + j = 9), remembering the first byte when the run starts the
record. -/
theorem readBytesLoop_flagged :
    ∀ (j : Nat) (src : List Nat) (b0 d c : Nat),
      c + j = 9 → j ≤ src.length → (∀ i, i < j → 0x80 ≤ src.getD i 0) →
      ∃ d', readBytesLoop src b0 d c
        = readBytesLoop (src.drop j) (if c = 0 ∧ 0 < j then src.getD 0 0 else b0) d' 9 := by
  intro j
  induction j with
  | zero =>
    intro src b0 d c h9 _ _
    refine ⟨d, ?_⟩
    have hc : c = 9 := by omega
    subst hc
    rw [if_neg (by omega), List.drop_zero]
  | succ j ih =>
    intro src b0 d c h9 hlen hflag
    cases src with
    | nil => simp at hlen
    | cons b rest =>
      have hb : 0x80 ≤ b := by
        have := hflag 0 (by omega)
        simpa using this
      simp only [readBytesLoop]
      have hc1 : ¬ (c = MaxByteSize - 1 ∧ 0x80 ≤ b) := by
        rintro ⟨h1, _⟩
        have : c = 9 := by simpa [MaxByteSize] using h1
        omega
      have hc2 : ¬ (c = MaxByteSize - 1 ∧ b0 ≠ 0x81) := by
        rintro ⟨h1, _⟩
        have : c = 9 := by simpa [MaxByteSize] using h1
        omega
      rw [if_neg hc1, if_neg hc2, if_neg (show ¬ b < 0x80 by omega)]
      obtain ⟨d', hd'⟩ := ih rest (if c = 0 then b else b0)
        (((d ||| (b &&& 0x7f)) <<< 7) % 2 ^ 64) (c + 1) (by omega)
        (by simpa using hlen)
        (fun i hi => by
          have := hflag (i + 1) (by omega)
          simpa using this)
      rw [if_neg (show ¬ (c + 1 = 0 ∧ 0 < j) by omega)] at hd'
      refine ⟨d', ?_⟩
      rw [hd', List.drop_succ_cons]
      by_cases hc : c = 0
      · rw [if_pos hc, if_pos ⟨hc, by omega⟩, List.getD_cons_zero]
      · rw [if_neg hc, if_neg (by tauto)]

/-- Both overflow scenarios of the streaming reader: ten flagged bytes, or a
clear-flag tenth byte with a first byte other than 0x81, end with ErrOverflow64
and ten bytes consumed. -/
theorem readBytes_overflow (src : List Nat) (d : Nat)
    (hlen : 10 ≤ src.length)
    (hflag : ∀ i, i < 9 → 0x80 ≤ src.getD i 0)
    (hover : 0x80 ≤ src.getD 9 0 ∨ src.getD 0 0 ≠ 0x81) :
    (ReadBytes src d).bytesConsumed = 10 ∧ (ReadBytes src d).err = some ReadErr.overflow64 := by
  obtain ⟨d', hd'⟩ := readBytesLoop_flagged 9 src 0 d 0 (by omega) (by omega) hflag
  rw [if_pos ⟨rfl, by omega⟩] at hd'
  rw [ReadBytes, hd', drop_getD src 9 (by omega)]
  simp only [readBytesLoop]
  by_cases hb : 0x80 ≤ src.getD 9 0
  · rw [if_pos ⟨rfl, hb⟩]
    exact ⟨rfl, rfl⟩
  · have hne : src.getD 0 0 ≠ 0x81 := by tauto
    rw [if_neg (by tauto), if_pos ⟨rfl, hne⟩]
    exact ⟨rfl, rfl⟩

/-- A nonempty all-flagged source of at most nine bytes exhausts mid-record:
the reader reports ErrUnexpectedEOF after consuming everything. -/
theorem readBytesLoop_trunc :
    ∀ (src : List Nat) (b0 d c : Nat),
      0 < c + src.length → c + src.length ≤ 9 → (∀ b ∈ src, 0x80 ≤ b) →
      ∃ d', readBytesLoop src b0 d c = ⟨c + src.length, some ReadErr.unexpectedEOF, d'⟩ := by
  intro src
  induction src with
  | nil =>
    intro b0 d c hpos _ _
    refine ⟨d, ?_⟩
    simp only [readBytesLoop, List.length_nil]
    rw [if_pos (by simpa using hpos), Nat.add_zero]
  | cons b rest ih =>
    intro b0 d c hpos hle hflag
    have hlen : (b :: rest).length = rest.length + 1 := by simp
    have hb : 0x80 ≤ b := hflag b (by simp)
    simp only [readBytesLoop]
    have hc1 : ¬ (c = MaxByteSize - 1 ∧ 0x80 ≤ b) := by
      rintro ⟨h1, _⟩
      have : c = 9 := by simpa [MaxByteSize] using h1
      rw [hlen] at hle
      omega
    have hc2 : ¬ (c = MaxByteSize - 1 ∧ b0 ≠ 0x81) := by
      rintro ⟨h1, _⟩
      have : c = 9 := by simpa [MaxByteSize] using h1
      rw [hlen] at hle
      omega
    rw [if_neg hc1, if_neg hc2, if_neg (show ¬ b < 0x80 by omega)]
    obtain ⟨d', hd'⟩ := ih (if c = 0 then b else b0)
      (((d ||| (b &&& 0x7f)) <<< 7) % 2 ^ 64) (c + 1)
      (by omega) (by rw [hlen] at hle; omega)
      (fun y hy => hflag y (by simp [hy]))
    refine ⟨d', ?_⟩
    rw [hd', hlen]
    have : c + 1 + rest.length = c + (rest.length + 1) := by omega
    rw [this]

/-! Concrete evaluation of bitLen (Nat.log2 is defined by well-founded
recursion, so the kernel does not reduce it; these lemmas recover concrete
values from the power-of-two characterisation). -/

/-- Characterisation of Nat.log2 by bracketing powers of two. -/
theorem log2_eq_of {x k : Nat} (h1 : 2 ^ k ≤ x) (h2 : x < 2 ^ (k + 1)) :
    Nat.log2 x = k := by
  have hx : x ≠ 0 := by
    have : (0 : Nat) < 2 ^ k := by positivity
    omega
  have hlt : Nat.log2 x < k + 1 := (Nat.log2_lt hx).mpr h2
  have hge : ¬ Nat.log2 x < k := by
    intro h
    have := (Nat.log2_lt hx).mp h
    omega
  omega

/-- Characterisation of bitLen by bracketing powers of two. -/
theorem bitLen_eq {x k : Nat} (h1 : 2 ^ k ≤ x) (h2 : x < 2 ^ (k + 1)) :
    bitLen x = k + 1 := by
  have hx : x ≠ 0 := by
    have : (0 : Nat) < 2 ^ k := by positivity
    omega
  rw [bitLen, if_neg hx, log2_eq_of h1 h2]

/-- Encoding of the canonical example 0x7f. -/
theorem encode_7f : Encode 0x7f = [0x7f] := by
  rw [Encode, if_neg (by norm_num),
    bitLen_eq (x := 0x7f) (k := 6) (by norm_num) (by norm_num)]
  decide

/-- Encoding of the canonical example 0xabc. -/
theorem encode_abc : Encode 0xabc = [0x95, 0x3c] := by
  rw [Encode, if_neg (by norm_num),
    bitLen_eq (x := 0xabc) (k := 11) (by norm_num) (by norm_num)]
  decide

/-- Encoding of the canonical example 0x1234. -/
theorem encode_1234 : Encode 0x1234 = [0xa4, 0x34] := by
  rw [Encode, if_neg (by norm_num),
    bitLen_eq (x := 0x1234) (k := 12) (by norm_num) (by norm_num)]
  decide

/-- Encoding of the canonical example 0x4234. -/
theorem encode_4234 : Encode 0x4234 = [0x81, 0x84, 0x34] := by
  rw [Encode, if_neg (by norm_num),
    bitLen_eq (x := 0x4234) (k := 14) (by norm_num) (by norm_num)]
  decide

/-- Encoding of the maximum 64-bit value. -/
theorem encode_max64 : Encode 0xffffffffffffffff
    = [0x81, 0xff, 0xff, 0xff, 0xff, 0xff, 0xff, 0xff, 0xff, 0x7f] := by
  rw [Encode, if_neg (by norm_num),
    bitLen_eq (x := 0xffffffffffffffff) (k := 63) (by norm_num) (by norm_num)]
  decide

/-- Encoding of 0x80, the smallest two-byte value. -/
theorem encode_80 : Encode 0x80 = [0x81, 0x00] := by
  rw [Encode, if_neg (by norm_num),
    bitLen_eq (x := 0x80) (k := 7) (by norm_num) (by norm_num)]
  decide

/-- Value of bitLen at 0x80, used to evaluate the WriteBytes model. -/
theorem bitLen_80 : bitLen 0x80 = 8 :=
  bitLen_eq (x := 0x80) (k := 7) (by norm_num) (by norm_num)

/-- The encoder's buffer written positionally: position p holds group n - p
(bits [7*(n-p), 7*(n-p)+6]), flagged at every position except p = n. -/
theorem encGroups_eq_map (x : Nat) :
    ∀ n, encGroups x n
      = (List.range (n + 1)).map fun p =>
          ((x >>> (7 * (n - p))) &&& 0x7f) ||| (if p ≠ n then 0x80 else 0) := by
  intro n
  induction n with
  | zero =>
    rw [encGroups, show List.range 1 = [0] from rfl, List.map_cons, List.map_nil]
    simp
  | succ n ih =>
    rw [encGroups, ih]
    conv_rhs => rw [List.range_succ_eq_map, List.map_cons, List.map_map]
    congr 1
    apply List.map_congr_left
    intro p hp
    simp only [Function.comp_apply]
    rw [show n + 1 - Nat.succ p = n - p by omega]
    congr 1
    by_cases hpn : p = n
    · rw [if_neg (show ¬ p ≠ n by omega), if_neg (show ¬ Nat.succ p ≠ n + 1 by omega)]
    · rw [if_pos hpn, if_pos (show Nat.succ p ≠ n + 1 by omega)]

/-! Claim theorems. -/

/-- Claim C1: for every 64-bit unsigned integer x, decoding the bytes produced
by the fixed-buffer encoder round-trips: Decode applied to the bytes written by
Encode returns the pair (x, n), where n is exactly the byte count Encode
returned. -/
theorem c1_decode_encode_round_trip (x : Nat) (hx : x < 2 ^ 64) :
    Decode (Encode x) = some (x, (Encode x).length) := by
  by_cases h0 : x = 0
  · subst h0
    decide
  · rw [Encode, if_neg h0]
    have hseed : (x >>> (7 * ((bitLen x - 1) / 7) + 7)) <<< 7 = 0 :=
      seed_zero _ _ (x_lt_groups x h0)
    have h := decodeLoop_encGroups x hx ((bitLen x - 1) / 7) 0
    rw [hseed] at h
    rw [Decode, h, encGroups_length, Nat.zero_add]

/-- Witness for claim C1 at x = 0x4234. -/
theorem c1_decode_encode_round_trip_witness :
    0x4234 < 2 ^ 64 ∧ Decode (Encode 0x4234) = some (0x4234, (Encode 0x4234).length) :=
  ⟨by norm_num, c1_decode_encode_round_trip 0x4234 (by norm_num)⟩

/-- Claim C2: for every 64-bit unsigned integer x, the streaming readers
succeed on a source yielding exactly the bytes Encode wrote, with the
out-parameter initially 0: they consume the encoded length, return no error,
and set the out-parameter to x (in particular the 10-byte encoding of 2^64-1,
whose first byte is 0x81, passes the overflow checks). -/
theorem c2_streaming_success (x : Nat) (hx : x < 2 ^ 64) :
    ReadBytes (Encode x) 0 = ⟨(Encode x).length, none, x⟩
    ∧ Read (Encode x) 0 = ⟨(Encode x).length, none, x⟩ := by
  have main : ReadBytes (Encode x) 0 = ⟨(Encode x).length, none, x⟩ := by
    by_cases h0 : x = 0
    · subst h0
      decide
    · rw [Encode, if_neg h0]
      have hle : (bitLen x - 1) / 7 ≤ 9 := groups_le_nine x h0 hx
      have h9 : 0 + (bitLen x - 1) / 7 = 9 →
          (if (0 : Nat) = 0
           then ((x >>> (7 * ((bitLen x - 1) / 7))) &&& 0x7f) ||| 0x80
           else 0) = 0x81 := by
        intro h
        rw [if_pos rfl]
        have h9' : (bitLen x - 1) / 7 = 9 := by omega
        rw [h9']
        exact first_byte_ten x h0 hx h9'
      have h := readBytesLoop_encGroups x ((bitLen x - 1) / 7) 0 0 0 (by omega) h9
      have hseed : (x >>> (7 * ((bitLen x - 1) / 7) + 7)) <<< 7 = 0 :=
        seed_zero _ _ (x_lt_groups x h0)
      have hfold := foldGroups_encGroups x hx ((bitLen x - 1) / 7)
      rw [hseed] at hfold
      rw [ReadBytes, h, encGroups_length, hfold, Nat.zero_add]
  refine ⟨main, ?_⟩
  rw [Read, readLoop_eq_readBytesLoop]
  exact main

/-- Witness for claim C2 at x = 2^64 - 1 (the 10-byte encoding named by the
claim). -/
theorem c2_streaming_success_witness :
    0xffffffffffffffff < 2 ^ 64
    ∧ (ReadBytes (Encode 0xffffffffffffffff) 0
        = ⟨(Encode 0xffffffffffffffff).length, none, 0xffffffffffffffff⟩
      ∧ Read (Encode 0xffffffffffffffff) 0
        = ⟨(Encode 0xffffffffffffffff).length, none, 0xffffffffffffffff⟩) :=
  ⟨by norm_num, c2_streaming_success 0xffffffffffffffff (by norm_num)⟩

/-- Counterexample to claim C5 as stated: the claimed placement (group i, bits
[7i, 7i+6], written into buffer[i]) produces [0x3c, 0x95] at x = 0xabc, while
Encode writes [0x95, 0x3c]. -/
theorem c5_counterexample :
    Encode 0xabc = [0x95, 0x3c] ∧ encodeC5Spec 0xabc = [0x3c, 0x95]
    ∧ Encode 0xabc ≠ encodeC5Spec 0xabc := by
  have hb : bitLen 0xabc = 12 := bitLen_eq (by norm_num) (by norm_num)
  have hspec : encodeC5Spec 0xabc = [0x3c, 0x95] := by
    rw [encodeC5Spec, if_neg (by norm_num), hb]
    decide
  refine ⟨encode_abc, hspec, ?_⟩
  rw [encode_abc, hspec]
  decide

/-- Claim C5 as amended: the encoder writes a single 0x00 for value 0; for
value > 0 it computes n = (bitlength-1)/7 and writes group i (bits [7i, 7i+6],
continuation flag set on every group except group 0) into buffer[n - i]. -/
theorem c5_amended_placement (x : Nat) (hx : x < 2 ^ 64) :
    Encode x = encodeC5Amended x := by
  by_cases h0 : x = 0
  · subst h0
    rfl
  · rw [Encode, encodeC5Amended, if_neg h0, if_neg h0]
    exact encGroups_eq_map x ((bitLen x - 1) / 7)

/-- Witness for the amended claim C5 at x = 0xabc. -/
theorem c5_amended_placement_witness :
    0xabc < 2 ^ 64 ∧ Encode 0xabc = encodeC5Amended 0xabc :=
  ⟨by norm_num, c5_amended_placement 0xabc (by norm_num)⟩

/-- Claim C6: the fixed-buffer encoder produces exactly the canonical byte
sequences on the six reference examples, in each case returning the length of
the listed sequence. -/
theorem c6_canonical_encodings :
    (Encode 0x00 = [0x00] ∧ (Encode 0x00).length = 1)
    ∧ (Encode 0x7f = [0x7f] ∧ (Encode 0x7f).length = 1)
    ∧ (Encode 0xabc = [0x95, 0x3c] ∧ (Encode 0xabc).length = 2)
    ∧ (Encode 0x1234 = [0xa4, 0x34] ∧ (Encode 0x1234).length = 2)
    ∧ (Encode 0x4234 = [0x81, 0x84, 0x34] ∧ (Encode 0x4234).length = 3)
    ∧ (Encode 0xffffffffffffffff
        = [0x81, 0xff, 0xff, 0xff, 0xff, 0xff, 0xff, 0xff, 0xff, 0x7f]
      ∧ (Encode 0xffffffffffffffff).length = 10) :=
  ⟨⟨by decide, by decide⟩,
    ⟨encode_7f, by rw [encode_7f]; rfl⟩,
    ⟨encode_abc, by rw [encode_abc]; rfl⟩,
    ⟨encode_1234, by rw [encode_1234]; rfl⟩,
    ⟨encode_4234, by rw [encode_4234]; rfl⟩,
    ⟨encode_max64, by rw [encode_max64]; rfl⟩⟩

/-- Claim C7: for every nonnegative arbitrary-precision integer x (with no
64-bit bound, covering encodings of any number of groups), decodeBig applied
to the bytes written by encodeBig returns (x, k) with k the byte count
encodeBig returned; and encodeBig produces exactly the bytes of the fixed
width encoder (same zero case, group order and continuation flags). -/
theorem c7_big_round_trip (x : Nat) :
    decodeBig (encodeBig x) = some (x, (encodeBig x).length) ∧ encodeBig x = Encode x := by
  constructor
  · by_cases h0 : x = 0
    · subst h0
      decide
    · rw [encodeBig, if_neg h0]
      have hseed : (x >>> (7 * ((bitLen x - 1) / 7) + 7)) <<< 7 = 0 :=
        seed_zero _ _ (x_lt_groups x h0)
      have h := decodeBigLoop_encGroups x ((bitLen x - 1) / 7) 0
      rw [hseed] at h
      rw [decodeBig, h, encGroups_length, Nat.zero_add]
  · rfl

/-- Claim C3: the streaming readers enforce the 10-byte ceiling: if the first
nine yielded bytes are all continuation-flagged and either the tenth byte is
also flagged or the first byte was not exactly 0x81, Read and ReadBytes fail
with the Overflow64 error and bytesConsumed = 10 (never more than 10 bytes
consumed). -/
theorem c3_overflow_detection (src : List Nat) (d : Nat)
    (hlen : 10 ≤ src.length)
    (hflag : ∀ i, i < 9 → 0x80 ≤ src.getD i 0)
    (hover : 0x80 ≤ src.getD 9 0 ∨ src.getD 0 0 ≠ 0x81) :
    ((ReadBytes src d).bytesConsumed = 10
      ∧ (ReadBytes src d).err = some ReadErr.overflow64)
    ∧ ((Read src d).bytesConsumed = 10
      ∧ (Read src d).err = some ReadErr.overflow64) := by
  have main := readBytes_overflow src d hlen hflag hover
  refine ⟨main, ?_⟩
  have heq : Read src d = ReadBytes src d := by
    rw [Read, ReadBytes, readLoop_eq_readBytesLoop]
  rw [heq]
  exact main

/-- Witness for claim C3 at the claim's 10-byte example [0x83, 0xff x 8, 0x7f]
(first byte not 0x81, clear-flag tenth byte). -/
theorem c3_overflow_detection_witness :
    (10 ≤ ([0x83, 0xff, 0xff, 0xff, 0xff, 0xff, 0xff, 0xff, 0xff, 0x7f] : List Nat).length)
    ∧ (((ReadBytes [0x83, 0xff, 0xff, 0xff, 0xff, 0xff, 0xff, 0xff, 0xff, 0x7f] 0).bytesConsumed = 10
        ∧ (ReadBytes [0x83, 0xff, 0xff, 0xff, 0xff, 0xff, 0xff, 0xff, 0xff, 0x7f] 0).err
          = some ReadErr.overflow64)
      ∧ ((Read [0x83, 0xff, 0xff, 0xff, 0xff, 0xff, 0xff, 0xff, 0xff, 0x7f] 0).bytesConsumed = 10
        ∧ (Read [0x83, 0xff, 0xff, 0xff, 0xff, 0xff, 0xff, 0xff, 0xff, 0x7f] 0).err
          = some ReadErr.overflow64)) :=
  ⟨by decide, c3_overflow_detection _ 0 (by decide) (by decide) (by decide)⟩

/-- Claim C4: the streaming readers distinguish absence from truncation:
end-of-input before any byte gives the EndOfInput error with bytesConsumed = 0;
end-of-input after at least one byte but before a clear-flag byte (an
all-flagged source of at most nine bytes, since with ten flagged bytes the
overflow check fires instead of end-of-input) gives UnexpectedEndOfInput with
bytesConsumed equal to the number of bytes consumed. -/
theorem c4_eoi_distinction (d : Nat) (src : List Nat)
    (hpos : 0 < src.length) (hle : src.length ≤ 9)
    (hflag : ∀ b ∈ src, 0x80 ≤ b) :
    ((ReadBytes ([] : List Nat) d).bytesConsumed = 0
      ∧ (ReadBytes ([] : List Nat) d).err = some ReadErr.eof)
    ∧ ((Read ([] : List Nat) d).bytesConsumed = 0
      ∧ (Read ([] : List Nat) d).err = some ReadErr.eof)
    ∧ ((ReadBytes src d).bytesConsumed = src.length
      ∧ (ReadBytes src d).err = some ReadErr.unexpectedEOF)
    ∧ ((Read src d).bytesConsumed = src.length
      ∧ (Read src d).err = some ReadErr.unexpectedEOF) := by
  obtain ⟨d', hd'⟩ := readBytesLoop_trunc src 0 d 0 (by omega) (by omega) hflag
  rw [Nat.zero_add] at hd'
  have hmain : (ReadBytes src d).bytesConsumed = src.length
      ∧ (ReadBytes src d).err = some ReadErr.unexpectedEOF := by
    rw [ReadBytes, hd']
    exact ⟨rfl, rfl⟩
  refine ⟨⟨rfl, rfl⟩, ⟨rfl, rfl⟩, hmain, ?_⟩
  have heq : Read src d = ReadBytes src d := by
    rw [Read, ReadBytes, readLoop_eq_readBytesLoop]
  rw [heq]
  exact hmain

/-- Witness for claim C4 at the claim's example source [0xff, 0xff]. -/
theorem c4_eoi_distinction_witness :
    (0 < ([0xff, 0xff] : List Nat).length)
    ∧ (((ReadBytes ([] : List Nat) 0).bytesConsumed = 0
        ∧ (ReadBytes ([] : List Nat) 0).err = some ReadErr.eof)
      ∧ ((Read ([] : List Nat) 0).bytesConsumed = 0
        ∧ (Read ([] : List Nat) 0).err = some ReadErr.eof)
      ∧ ((ReadBytes [0xff, 0xff] 0).bytesConsumed = ([0xff, 0xff] : List Nat).length
        ∧ (ReadBytes [0xff, 0xff] 0).err = some ReadErr.unexpectedEOF)
      ∧ ((Read [0xff, 0xff] 0).bytesConsumed = ([0xff, 0xff] : List Nat).length
        ∧ (Read [0xff, 0xff] 0).err = some ReadErr.unexpectedEOF)) :=
  ⟨by decide, c4_eoi_distinction 0 [0xff, 0xff] (by decide) (by decide) (by decide)⟩

/-- Claim C8 evaluated at its failing input: WriteBytes on x = 0x80 with a sink
whose WriteByte always reports error 7 hands the two encoded bytes to the sink
yet returns count 2 and no error, so the sink's error is discarded rather than
propagated; function Write, by contrast, returns the sink's answer unchanged. -/
theorem c8_writebytes_discards_sink_error :
    WriteBytes (fun _ => some 7) 0x80 = ([0x81, 0x00], 2, none)
    ∧ (∀ r : Nat × Option Nat, Write (fun _ => r) 0x80 = r) := by
  constructor
  · rw [WriteBytes, if_neg (by norm_num), bitLen_80]
    decide
  · intro r
    rw [Write, if_neg (by norm_num)]

/-- Counterexample to claim C9 as stated: the properly terminated non-canonical
sequence [0x80, 0x01] (superfluous leading zero group) is accepted by both
streaming readers with no error, decoding to 1 after 2 bytes. -/
theorem c9_counterexample :
    (ReadBytes [0x80, 0x01] 0).err = none ∧ (ReadBytes [0x80, 0x01] 0).data = 1
    ∧ (ReadBytes [0x80, 0x01] 0).bytesConsumed = 2
    ∧ (Read [0x80, 0x01] 0).err = none ∧ (Read [0x80, 0x01] 0).data = 1
    ∧ (Read [0x80, 0x01] 0).bytesConsumed = 2 := by
  decide

/-- Claim C9 as amended: the streaming readers reject non-canonical form only
at the 10-byte ceiling: a properly terminated 10-byte sequence whose leading
group is a superfluous zero (first byte 0x80) fails with Overflow64 after 10
bytes, while shorter non-canonical sequences such as [0x80, 0x01] are accepted
without error. -/
theorem c9_amended_ten_byte_only (src : List Nat) (d : Nat)
    (h10 : src.length = 10)
    (hflag : ∀ i, i < 9 → 0x80 ≤ src.getD i 0)
    (hterm : src.getD 9 0 < 0x80)
    (hlead : src.getD 0 0 = 0x80) :
    (((ReadBytes src d).err = some ReadErr.overflow64
        ∧ (ReadBytes src d).bytesConsumed = 10)
      ∧ ((Read src d).err = some ReadErr.overflow64
        ∧ (Read src d).bytesConsumed = 10))
    ∧ ((ReadBytes [0x80, 0x01] 0).err = none
      ∧ (Read [0x80, 0x01] 0).err = none) := by
  have main := readBytes_overflow src d (by omega) hflag (Or.inr (by omega))
  refine ⟨⟨⟨main.2, main.1⟩, ?_⟩, by decide, by decide⟩
  have heq : Read src d = ReadBytes src d := by
    rw [Read, ReadBytes, readLoop_eq_readBytesLoop]
  rw [heq]
  exact ⟨main.2, main.1⟩

/-- Witness for the amended claim C9 at the 10-byte non-canonical sequence
[0x80, 0xff x 8, 0x00]. -/
theorem c9_amended_ten_byte_only_witness :
    (([0x80, 0xff, 0xff, 0xff, 0xff, 0xff, 0xff, 0xff, 0xff, 0x00] : List Nat).length = 10)
    ∧ ((((ReadBytes [0x80, 0xff, 0xff, 0xff, 0xff, 0xff, 0xff, 0xff, 0xff, 0x00] 0).err
          = some ReadErr.overflow64
        ∧ (ReadBytes [0x80, 0xff, 0xff, 0xff, 0xff, 0xff, 0xff, 0xff, 0xff, 0x00] 0).bytesConsumed = 10)
      ∧ ((Read [0x80, 0xff, 0xff, 0xff, 0xff, 0xff, 0xff, 0xff, 0xff, 0x00] 0).err
          = some ReadErr.overflow64
        ∧ (Read [0x80, 0xff, 0xff, 0xff, 0xff, 0xff, 0xff, 0xff, 0xff, 0x00] 0).bytesConsumed = 10))
      ∧ ((ReadBytes [0x80, 0x01] 0).err = none
        ∧ (Read [0x80, 0x01] 0).err = none)) :=
  ⟨by decide,
    c9_amended_ten_byte_only [0x80, 0xff, 0xff, 0xff, 0xff, 0xff, 0xff, 0xff, 0xff, 0x00] 0
      (by decide) (by decide) (by decide) (by decide)⟩

/-- Counterexample to claim C10 as stated ("for every x the final out-value
equals x only under the precondition that *data = 0 at entry"): at
x = 2^64 - 1 with initial out-value 1 the readers still return data = x even
though the initial out-value is nonzero. -/
theorem c10_counterexample :
    (ReadBytes (Encode 0xffffffffffffffff) 1).data = 0xffffffffffffffff
    ∧ (Read (Encode 0xffffffffffffffff) 1).data = 0xffffffffffffffff
    ∧ (1 : Nat) ≠ 0 := by
  rw [encode_max64]
  exact ⟨by decide, by decide, by decide⟩

/-- Claim C10 as amended: the readers never reset the out-parameter; for every
x and every initial out-value d0 the final out-value is the group fold over the
encoded bytes seeded at d0 (truncated to 64 bits), and the readers reconstruct
every 64-bit x only if d0 = 0. -/
theorem c10_amended_seeded_fold :
    (∀ x d0, x < 2 ^ 64 → d0 < 2 ^ 64 →
      (ReadBytes (Encode x) d0).data = foldGroups d0 (Encode x)
      ∧ (Read (Encode x) d0).data = foldGroups d0 (Encode x))
    ∧ (∀ d0, d0 < 2 ^ 64 →
      (∀ x, x < 2 ^ 64 → (ReadBytes (Encode x) d0).data = x) → d0 = 0) := by
  constructor
  · intro x d0 hx hd0
    have main : (ReadBytes (Encode x) d0).data = foldGroups d0 (Encode x) := by
      by_cases h0 : x = 0
      · subst h0
        rfl
      · rw [Encode, if_neg h0]
        have hle : (bitLen x - 1) / 7 ≤ 9 := groups_le_nine x h0 hx
        have h9 : 0 + (bitLen x - 1) / 7 = 9 →
            (if (0 : Nat) = 0
             then ((x >>> (7 * ((bitLen x - 1) / 7))) &&& 0x7f) ||| 0x80
             else 0) = 0x81 := by
          intro h
          rw [if_pos rfl]
          have h9' : (bitLen x - 1) / 7 = 9 := by omega
          rw [h9']
          exact first_byte_ten x h0 hx h9'
        have h := readBytesLoop_encGroups x ((bitLen x - 1) / 7) 0 0 d0 (by omega) h9
        rw [ReadBytes, h]
    refine ⟨main, ?_⟩
    have heq : Read (Encode x) d0 = ReadBytes (Encode x) d0 := by
      rw [Read, ReadBytes, readLoop_eq_readBytesLoop]
    rw [heq]
    exact main
  · intro d0 hd0 hall
    have h0 := hall 0 (by positivity)
    have hval : d0 ||| (0 &&& 0x7f) = 0 := h0
    rw [show ((0 : Nat) &&& 0x7f) = 0 from rfl, Nat.or_zero] at hval
    exact hval

/-- Witness for the amended claim C10 at x = 5, d0 = 3. -/
theorem c10_amended_seeded_fold_witness :
    (5 : Nat) < 2 ^ 64
    ∧ ((ReadBytes (Encode 5) 3).data = foldGroups 3 (Encode 5)
      ∧ (Read (Encode 5) 3).data = foldGroups 3 (Encode 5)) :=
  ⟨by norm_num, c10_amended_seeded_fold.1 5 3 (by norm_num) (by norm_num)⟩

end Sdnv
